import Mathlib

/-!
Verification of the serder DER primitive codec (src/serder/src/lib.rs).

The embedding models byte streams as lists of naturals (each < 256 for a
well-formed stream).  Serialization functions return the octet list written
together with the count the Rust function returns; deserialization functions
consume a prefix of the input and return the decoded value together with the
remaining input.  Failures distinguish the recoverable DerError variants from
panics (assertion failures / out-of-range slice indexing inside the byteorder
readers), which in Rust abort the call rather than return an error.
-/

set_option maxHeartbeats 1000000

namespace Serder

/-- Error taxonomy of the library (enum DerError). -/
inductive DerError
  | IntValueTooLarge
  | InvalidEncoding
  | Io
  | UnexpectedEof
  | UnexpectedTag
deriving DecidableEq

/-- Outcome of a fallible operation: success, a recoverable DerError, or a
panic (byteorder asserts that a requested byte count is within the supported
range and slices a fixed-size scratch buffer by it; byte counts outside that
range abort instead of returning an error). -/
inductive DecResult (α : Type)
  | ok (a : α)
  | err (e : DerError)
  | panic
deriving DecidableEq

/-- Sequencing of fallible reads: errors and panics short-circuit (the Rust
question-mark operator, with panics propagating unconditionally). -/
def DecResult.bind {α β : Type} : DecResult α → (α → DecResult β) → DecResult β
  | .ok a, f => f a
  | .err e, _ => .err e
  | .panic, _ => .panic

/-- Big-endian bytes of v at width w octets (the low 8*w bits of v), as
produced by to_be_bytes. -/
def toBeBytes : Nat → Nat → List Nat
  | 0, _ => []
  | w + 1, v => toBeBytes w (v / 256) ++ [v % 256]

/-- Accumulator loop of the byteorder big-endian readers
(out = out * 256 + byte, over the bytes in order). -/
def fromBeBytesAux (acc : Nat) : List Nat → Nat
  | [] => acc
  | b :: rest => fromBeBytesAux (acc * 256 + b) rest

/-- Unsigned big-endian value of a byte list (BigEndian::read_uint family). -/
def fromBeBytes (l : List Nat) : Nat := fromBeBytesAux 0 l

/-- extend_sign128: reinterpret the low 8*nbytes bits of val as a
two's-complement signed integer. -/
def signExtend (nbytes : Nat) (val : Nat) : Int :=
  if val % 2 ^ (8 * nbytes) < 2 ^ (8 * nbytes - 1) then
    ((val % 2 ^ (8 * nbytes) : Nat) : Int)
  else
    ((val % 2 ^ (8 * nbytes) : Nat) : Int) - 2 ^ (8 * nbytes)

/-- read_u8 on a byte slice: UnexpectedEof when the slice is empty (the
io::ErrorKind::UnexpectedEof is translated by From into DerError). -/
def readU8 : List Nat → DecResult (Nat × List Nat)
  | [] => .err .UnexpectedEof
  | b :: rest => .ok (b, rest)

/-- byteorder ReadBytesExt::read_uint over a byte slice.  nbytes > 8 panics
slicing the 8-byte scratch buffer; a short input is UnexpectedEof; nbytes = 0
trips the 1 <= nbytes assertion after the (empty) read. -/
def readUint (nbytes : Nat) (bytes : List Nat) : DecResult (Nat × List Nat) :=
  if 8 < nbytes then .panic
  else if bytes.length < nbytes then .err .UnexpectedEof
  else if nbytes = 0 then .panic
  else .ok (fromBeBytes (bytes.take nbytes), bytes.drop nbytes)

/-- byteorder ReadBytesExt::read_uint128 over a byte slice (16-byte scratch
buffer, supported range 1..=16). -/
def readUint128 (nbytes : Nat) (bytes : List Nat) : DecResult (Nat × List Nat) :=
  if 16 < nbytes then .panic
  else if bytes.length < nbytes then .err .UnexpectedEof
  else if nbytes = 0 then .panic
  else .ok (fromBeBytes (bytes.take nbytes), bytes.drop nbytes)

/-- byteorder ReadBytesExt::read_int128: read_uint128 then sign extension. -/
def readInt128 (nbytes : Nat) (bytes : List Nat) : DecResult (Int × List Nat) :=
  (readUint128 nbytes bytes).bind fun p => .ok (signExtend nbytes p.1, p.2)

/-- Length::new — assert!(n > 0); none models the assertion failure. -/
def lengthNew (n : Nat) : Option Nat :=
  if 0 < n then some n else none

/-- Length::serialize of a Length holding value v (a u32, so v < 2^32):
octet list written and the count the function returns. -/
def lengthSerialize (v : Nat) : List Nat × Nat :=
  if 127 < v then
    let bytes := toBeBytes 4 v
    let start := (bytes.takeWhile (fun b => b == 0)).length
    let len := 4 - start
    ((128 ||| len) :: bytes.drop start, len + 1)
  else
    ([v], 1)

/-- Length::deserialize: decoded u32 value and remaining input.  The first
octet is the short-form value unless > 127, in which case its low 7 bits give
the count of big-endian value octets; the u64 read value must fit a u32
(try_into, failing with IntValueTooLarge). -/
def lengthDeserialize (bytes : List Nat) : DecResult (Nat × List Nat) :=
  (readU8 bytes).bind fun p =>
    if 127 < p.1 then
      (readUint (p.1 &&& 127) p.2).bind fun q =>
        if q.1 < 2 ^ 32 then .ok q else .err .IntValueTooLarge
    else
      .ok p

/-- Tag::new stores the raw byte as given. -/
def tagNew (t : Nat) : Nat := t

/-- Tag::universal — clear the class bits (7-6). -/
def tagUniversal (t : Nat) : Nat := t &&& 63

/-- Tag::application — clear the class bits, set class 01. -/
def tagApplication (t : Nat) : Nat := t &&& 63 ||| 64

/-- Tag::context_specific — clear the class bits, set class 10. -/
def tagContextSpecific (t : Nat) : Nat := t &&& 63 ||| 128

/-- Tag::private — clear the class bits, set class 11. -/
def tagPrivate (t : Nat) : Nat := t &&& 63 ||| 192

/-- Tag::primitive — clear bit 5. -/
def tagPrimitive (t : Nat) : Nat := t &&& 223

/-- Tag::constructed — clear bit 5 then set it. -/
def tagConstructed (t : Nat) : Nat := t &&& 223 ||| 32

/-- INTEGER tag constant: Tag::new(2).universal().primitive(). -/
def INTEGER : Nat := tagPrimitive (tagUniversal (tagNew 2))

/-- Body of the int_encode macro, applied to the value's big-endian byte
pattern at native width w (for a signed type, its two's-complement pattern).
The Length::new(len) assertion cannot fire: len is forced to 1 when the
stripped representation would be empty. -/
def intEncode (w : Nat) (v : Nat) : List Nat × Nat :=
  let bytes := toBeBytes w v
  let start0 := (bytes.takeWhile (fun b => b == 0)).length
  let len0 := w - start0
  let start := if len0 = 0 then bytes.length - 1 else start0
  let len := if len0 = 0 then 1 else len0
  let lenOut := lengthSerialize len
  (INTEGER :: lenOut.1 ++ bytes.drop start, 1 + lenOut.2 + len)

/-- Two's-complement pattern of x at width w octets (i_w to_be_bytes seen as
an unsigned number). -/
def toTwos (w : Nat) (x : Int) : Nat := (x % (2 ^ (8 * w) : Int)).toNat

/-- serialize of a signed w-byte integer: the int_encode body on the value's
two's-complement byte pattern. -/
def intEncodeSigned (w : Nat) (x : Int) : List Nat × Nat := intEncode w (toTwos w x)

/-- Body of the int_decode macro for a signed target type of byte width w:
tag octet checked against INTEGER, then the length; a content count below the
native width is read unsigned (read_uint128), otherwise signed (read_int128);
try_into to the target is the final range check. -/
def intDecode (w : Nat) (bytes : List Nat) : DecResult (Int × List Nat) :=
  (readU8 bytes).bind fun p =>
    if p.1 = INTEGER then
      (lengthDeserialize p.2).bind fun q =>
        if q.1 < w then
          (readUint128 q.1 q.2).bind fun r =>
            if r.1 ≤ 2 ^ (8 * w - 1) - 1 then .ok ((r.1 : Int), r.2)
            else .err .IntValueTooLarge
        else
          (readInt128 q.1 q.2).bind fun r =>
            if -(2 ^ (8 * w - 1) : Int) ≤ r.1 ∧ r.1 ≤ (2 : Int) ^ (8 * w - 1) - 1 then .ok r
            else .err .IntValueTooLarge
    else .err .UnexpectedTag

/-- Body of the uint_decode macro for an unsigned target type of byte width
w: like int_decode but the content is always read unsigned. -/
def uintDecode (w : Nat) (bytes : List Nat) : DecResult (Nat × List Nat) :=
  (readU8 bytes).bind fun p =>
    if p.1 = INTEGER then
      (lengthDeserialize p.2).bind fun q =>
        (readUint128 q.1 q.2).bind fun r =>
          if r.1 ≤ 2 ^ (8 * w) - 1 then .ok r
          else .err .IntValueTooLarge
    else .err .UnexpectedTag

/-- Octet count of the minimal big-endian representation (1 for zero). -/
def minByteLen (v : Nat) : Nat := Nat.log 256 v + 1

example : lengthSerialize 1 = ([1], 1) := by decide
example : lengthSerialize 128 = ([0x81, 0x80], 2) := by decide
example : lengthSerialize 0xA5B5 = ([0x82, 0xA5, 0xB5], 3) := by decide
example : lengthSerialize 0xA5B5C5D5 = ([0x84, 0xA5, 0xB5, 0xC5, 0xD5], 5) := by decide
example : lengthDeserialize [0x82, 0xAB, 0xCD] = .ok (0xABCD, []) := by decide
example : lengthDeserialize [0x85, 0xAB, 0xCD, 0xEF, 0x88, 0x99] = .err .IntValueTooLarge := by
  decide
example : intEncode 1 255 = ([0x02, 0x01, 0xFF], 3) := by decide
example : intEncode 4 0 = ([0x02, 0x01, 0x00], 3) := by decide
example : intEncodeSigned 2 (-2) = ([0x02, 0x02, 0xFF, 0xFE], 4) := by decide
example : uintDecode 2 [0x02, 0x01, 0xFF] = .ok (255, []) := by decide
example : intDecode 2 [0x02, 0x02, 0xFF, 0xFE] = .ok (-2, []) := by decide
example : intDecode 1 [0x05, 0x01, 0x00] = .err .UnexpectedTag := by decide

/-! Helper lemmas about the byte-level primitives. -/

@[simp] lemma DecResult.bind_ok {α β : Type} (a : α) (f : α → DecResult β) :
    DecResult.bind (.ok a) f = f a := rfl

@[simp] lemma DecResult.bind_err {α β : Type} (e : DerError) (f : α → DecResult β) :
    DecResult.bind (.err e) f = .err e := rfl

@[simp] lemma DecResult.bind_panic {α β : Type} (f : α → DecResult β) :
    DecResult.bind .panic f = .panic := rfl

@[simp] lemma readU8_nil : readU8 [] = .err .UnexpectedEof := rfl

@[simp] lemma readU8_cons (b : Nat) (rest : List Nat) : readU8 (b :: rest) = .ok (b, rest) :=
  rfl

lemma INTEGER_eq : INTEGER = 2 := rfl

lemma toBeBytes_length (w v : Nat) : (toBeBytes w v).length = w := by
  induction w generalizing v with
  | zero => rfl
  | succ w ih => simp [toBeBytes, ih]

lemma toBeBytes_zero (w : Nat) : toBeBytes w 0 = List.replicate w 0 := by
  induction w with
  | zero => rfl
  | succ w ih => simp [toBeBytes, ih, List.replicate_succ']

lemma pow256 (k : Nat) : (2 : Nat) ^ (8 * k) = 256 ^ k := by
  rw [pow_mul]; norm_num

lemma toBeBytes_zero_cons (w v : Nat) (hv : v < 2 ^ (8 * w)) :
    toBeBytes (w + 1) v = 0 :: toBeBytes w v := by
  induction w generalizing v with
  | zero =>
    have : v = 0 := by simpa using hv
    subst this; rfl
  | succ w ih =>
    have h28 : (2 : Nat) ^ (8 * (w + 1 + 1)) = 2 ^ (8 * (w + 1)) * 256 := by
      rw [Nat.mul_succ, pow_add]; norm_num
    have hdiv : v / 256 < 2 ^ (8 * (w + 1)) := by
      apply Nat.div_lt_of_lt_mul
      omega
    show toBeBytes (w + 1) (v / 256) ++ [v % 256]
        = 0 :: (toBeBytes w (v / 256) ++ [v % 256])
    rw [ih (v / 256) (by
      have h28' : (2 : Nat) ^ (8 * (w + 1)) = 2 ^ (8 * w) * 256 := by
        rw [Nat.mul_succ, pow_add]; norm_num
      apply Nat.div_lt_of_lt_mul
      omega)]
    rfl

lemma toBeBytes_pad (k u v : Nat) (hv : v < 2 ^ (8 * u)) :
    toBeBytes (u + k) v = List.replicate k 0 ++ toBeBytes u v := by
  induction k with
  | zero => simp
  | succ k ih =>
    have hv' : v < 2 ^ (8 * (u + k)) :=
      lt_of_lt_of_le hv (Nat.pow_le_pow_right (by norm_num) (by omega))
    rw [show u + (k + 1) = (u + k) + 1 from by omega, toBeBytes_zero_cons (u + k) v hv', ih,
      List.replicate_succ]
    rfl

lemma minByteLen_pos (v : Nat) : 1 ≤ minByteLen v := by
  simp only [minByteLen]; omega

lemma lt_pow_minByteLen (v : Nat) : v < 2 ^ (8 * minByteLen v) := by
  rw [pow256]
  exact Nat.lt_pow_succ_log_self (by norm_num) v

lemma minByteLen_le (w v : Nat) (hw : 1 ≤ w) (hv : v < 2 ^ (8 * w)) :
    minByteLen v ≤ w := by
  rcases Nat.eq_zero_or_pos v with h0 | h1
  · subst h0; simp only [minByteLen, Nat.log_zero_right]; omega
  · rw [pow256] at hv
    have := Nat.log_lt_of_lt_pow (by omega : v ≠ 0) hv
    simp only [minByteLen]; omega

lemma pow_le_minByteLen (v : Nat) (hv : 1 ≤ v) : 2 ^ (8 * (minByteLen v - 1)) ≤ v := by
  simp only [minByteLen, Nat.add_sub_cancel]
  rw [pow256]
  exact Nat.pow_log_le_self 256 (by omega)

lemma minByteLen_eq (L v : Nat) (hL : 1 ≤ L) (h1 : 2 ^ (8 * (L - 1)) ≤ v)
    (h2 : v < 2 ^ (8 * L)) : minByteLen v = L := by
  rw [pow256] at h1 h2
  have hlog : Nat.log 256 v = L - 1 := by
    apply Nat.log_eq_of_pow_le_of_lt_pow h1
    rw [show L - 1 + 1 = L from by omega]
    exact h2
  simp only [minByteLen, hlog]; omega

lemma toBeBytes_strip (w v : Nat) (hw : 1 ≤ w) (hv : v < 2 ^ (8 * w)) :
    toBeBytes w v = List.replicate (w - minByteLen v) 0 ++ toBeBytes (minByteLen v) v := by
  have hle := minByteLen_le w v hw hv
  have h := toBeBytes_pad (w - minByteLen v) (minByteLen v) v (lt_pow_minByteLen v)
  rw [show minByteLen v + (w - minByteLen v) = w from by omega] at h
  exact h

lemma toBeBytes_head (w v : Nat) (hw : 1 ≤ w) :
    (toBeBytes w v).head? = some (v / 2 ^ (8 * (w - 1)) % 256) := by
  induction w generalizing v with
  | zero => omega
  | succ w ih =>
    rcases Nat.eq_zero_or_pos w with h0 | h1
    · subst h0
      show (toBeBytes 0 (v / 256) ++ [v % 256]).head? = _
      simp [toBeBytes]
    · show (toBeBytes w (v / 256) ++ [v % 256]).head? = _
      rw [List.head?_append, ih (v / 256) h1]
      have hpow : (256 : Nat) * 2 ^ (8 * (w - 1)) = 2 ^ (8 * w) := by
        rw [show (256 : Nat) = 2 ^ 8 from by norm_num, ← pow_add]
        congr 1
        omega
      simp only [Option.or_some, Option.some.injEq, Nat.add_sub_cancel]
      rw [Nat.div_div_eq_div_mul, hpow]

lemma takeWhile_zero_replicate (k : Nat) (l : List Nat)
    (hl : l.takeWhile (fun b => b == 0) = []) :
    (List.replicate k 0 ++ l).takeWhile (fun b => b == 0) = List.replicate k 0 := by
  induction k with
  | zero => simpa using hl
  | succ k ih => simp [List.replicate_succ, List.takeWhile_cons, ih]

lemma takeWhile_head_ne (b : Nat) (l : List Nat) (hb : b ≠ 0) :
    (b :: l).takeWhile (fun x => x == 0) = [] := by
  simp [List.takeWhile_cons, hb]

lemma toBeBytes_min_head (v : Nat) (hv : 1 ≤ v) :
    ∃ b l, toBeBytes (minByteLen v) v = b :: l ∧ b ≠ 0 := by
  have hw := minByteLen_pos v
  have hne : toBeBytes (minByteLen v) v ≠ [] := by
    intro h
    have hlen := toBeBytes_length (minByteLen v) v
    rw [h] at hlen
    simp at hlen
    omega
  obtain ⟨b, l, hbl⟩ := List.exists_cons_of_ne_nil hne
  refine ⟨b, l, hbl, ?_⟩
  have hh := toBeBytes_head (minByteLen v) v hw
  rw [hbl] at hh
  simp only [List.head?_cons, Option.some.injEq] at hh
  have hpos : 0 < (2 : Nat) ^ (8 * (minByteLen v - 1)) := pow_pos (by norm_num) _
  have h1 : 1 ≤ v / 2 ^ (8 * (minByteLen v - 1)) :=
    (Nat.one_le_div_iff hpos).mpr (pow_le_minByteLen v hv)
  have h2 : v / 2 ^ (8 * (minByteLen v - 1)) < 256 := by
    rw [Nat.div_lt_iff_lt_mul hpos]
    have hpow : (256 : Nat) * 2 ^ (8 * (minByteLen v - 1)) = 2 ^ (8 * minByteLen v) := by
      rw [show (256 : Nat) = 2 ^ 8 from by norm_num, ← pow_add]
      congr 1
      have := minByteLen_pos v
      omega
    have := lt_pow_minByteLen v
    omega
  omega

lemma takeWhile_len (w v : Nat) (hw : 1 ≤ w) (hv : v < 2 ^ (8 * w)) :
    ((toBeBytes w v).takeWhile (fun b => b == 0)).length
      = if v = 0 then w else w - minByteLen v := by
  rcases Nat.eq_zero_or_pos v with h0 | h1
  · subst h0
    rw [if_pos rfl, toBeBytes_zero]
    have h := takeWhile_zero_replicate w [] rfl
    simp only [List.append_nil] at h
    rw [h, List.length_replicate]
  · obtain ⟨b, l, hbl, hb⟩ := toBeBytes_min_head v h1
    rw [if_neg (by omega), toBeBytes_strip w v hw hv, hbl,
      takeWhile_zero_replicate _ _ (takeWhile_head_ne b l hb), List.length_replicate]

lemma drop_strip (w v : Nat) (hw : 1 ≤ w) (hv : v < 2 ^ (8 * w)) :
    (toBeBytes w v).drop (w - minByteLen v) = toBeBytes (minByteLen v) v := by
  rw [toBeBytes_strip w v hw hv]
  exact List.drop_left' (List.length_replicate _ _)

lemma fromBeBytesAux_append (acc : Nat) (l1 l2 : List Nat) :
    fromBeBytesAux acc (l1 ++ l2) = fromBeBytesAux (fromBeBytesAux acc l1) l2 := by
  induction l1 generalizing acc with
  | nil => rfl
  | cons b rest ih => exact ih (acc * 256 + b)

lemma fromBeBytesAux_eq (l : List Nat) (acc : Nat) :
    fromBeBytesAux acc l = acc * 256 ^ l.length + fromBeBytes l := by
  induction l generalizing acc with
  | nil => simp [fromBeBytesAux, fromBeBytes]
  | cons b rest ih =>
    show fromBeBytesAux (acc * 256 + b) rest = _
    rw [ih]
    have hcons : fromBeBytes (b :: rest) = b * 256 ^ rest.length + fromBeBytes rest := by
      show fromBeBytesAux (0 * 256 + b) rest = _
      rw [ih]
      ring
    rw [hcons, List.length_cons]
    ring

lemma fromBeBytes_append_singleton (l : List Nat) (b : Nat) :
    fromBeBytes (l ++ [b]) = fromBeBytes l * 256 + b := by
  show fromBeBytesAux 0 (l ++ [b]) = _
  rw [fromBeBytesAux_append]
  rfl

lemma fromBeBytes_toBeBytes (w v : Nat) (hv : v < 2 ^ (8 * w)) :
    fromBeBytes (toBeBytes w v) = v := by
  induction w generalizing v with
  | zero =>
    have : v = 0 := by simpa using hv
    subst this; rfl
  | succ w ih =>
    have h28 : (2 : Nat) ^ (8 * (w + 1)) = 2 ^ (8 * w) * 256 := by
      rw [Nat.mul_succ, pow_add]; norm_num
    show fromBeBytes (toBeBytes w (v / 256) ++ [v % 256]) = v
    rw [fromBeBytes_append_singleton, ih (v / 256) (by apply Nat.div_lt_of_lt_mul; omega)]
    omega

lemma fromBeBytes_lt (l : List Nat) (h : ∀ b ∈ l, b < 256) :
    fromBeBytes l < 256 ^ l.length := by
  induction l with
  | nil => simp [fromBeBytes, fromBeBytesAux]
  | cons b rest ih =>
    have hb : b < 256 := h b (by simp)
    have hr := ih (fun x hx => h x (by simp [hx]))
    show fromBeBytesAux (0 * 256 + b) rest < _
    rw [fromBeBytesAux_eq, List.length_cons, pow_succ]
    have hmul : (0 * 256 + b) * 256 ^ rest.length ≤ 255 * 256 ^ rest.length :=
      Nat.mul_le_mul_right _ (by omega)
    have : (255 : Nat) * 256 ^ rest.length + 256 ^ rest.length = 256 ^ rest.length * 256 := by
      ring
    omega

lemma fromBeBytes_lt_pow2 (l : List Nat) (h : ∀ b ∈ l, b < 256) :
    fromBeBytes l < 2 ^ (8 * l.length) := by
  rw [pow256]
  exact fromBeBytes_lt l h

lemma signExtend_eq (n p : Nat) (hp : p < 2 ^ (8 * n)) :
    signExtend n p = if p < 2 ^ (8 * n - 1) then (p : Int) else (p : Int) - 2 ^ (8 * n) := by
  unfold signExtend
  rw [Nat.mod_eq_of_lt hp]

lemma lengthSerialize_short (v : Nat) (hv : v ≤ 127) : lengthSerialize v = ([v], 1) := by
  simp only [lengthSerialize]
  rw [if_neg (by omega)]

lemma lengthSerialize_long (v : Nat) (h127 : 127 < v) (hv : v < 2 ^ 32) :
    lengthSerialize v
      = ((128 ||| minByteLen v) :: toBeBytes (minByteLen v) v, minByteLen v + 1) := by
  have hv' : v < 2 ^ (8 * 4) := by norm_num at hv ⊢; omega
  have hle := minByteLen_le 4 v (by norm_num) hv'
  simp only [lengthSerialize]
  rw [if_pos h127, takeWhile_len 4 v (by norm_num) hv', if_neg (by omega),
    show 4 - (4 - minByteLen v) = minByteLen v from by omega, drop_strip 4 v (by norm_num) hv']

lemma lengthSerialize_count (v : Nat) (hv : v < 2 ^ 32) :
    (lengthSerialize v).2 = (lengthSerialize v).1.length := by
  rcases le_or_lt v 127 with h | h
  · rw [lengthSerialize_short v h]
    rfl
  · rw [lengthSerialize_long v h hv]
    simp [toBeBytes_length, Nat.add_comm]

lemma intEncode_eq (w v : Nat) (hw : 1 ≤ w) (hv : v < 2 ^ (8 * w)) :
    intEncode w v
      = (INTEGER :: (lengthSerialize (minByteLen v)).1 ++ toBeBytes (minByteLen v) v,
         1 + (lengthSerialize (minByteLen v)).2 + minByteLen v) := by
  simp only [intEncode]
  rw [takeWhile_len w v hw hv]
  rcases Nat.eq_zero_or_pos v with h0 | h1
  · subst h0
    rw [if_pos rfl]
    have hmb : minByteLen 0 = 1 := by simp [minByteLen]
    rw [show w - w = 0 from by omega, if_pos rfl, if_pos rfl, hmb, toBeBytes_zero,
      List.length_replicate, List.drop_replicate]
    rw [show w - (w - 1) = 1 from by omega]
    rfl
  · have hle := minByteLen_le w v hw hv
    have hpos := minByteLen_pos v
    rw [if_neg (show ¬v = 0 from by omega),
      show w - (w - minByteLen v) = minByteLen v from by omega,
      if_neg (by omega), if_neg (by omega), drop_strip w v hw hv]

lemma readUint_exact (n : Nat) (l extra : List Nat) (hn1 : 1 ≤ n) (hn8 : n ≤ 8)
    (hl : l.length = n) :
    readUint n (l ++ extra) = .ok (fromBeBytes l, extra) := by
  unfold readUint
  rw [if_neg (by omega), if_neg (by rw [List.length_append, hl]; omega), if_neg (by omega),
    List.take_left' hl, List.drop_left' hl]

lemma readUint128_exact (n : Nat) (l extra : List Nat) (hn1 : 1 ≤ n) (hn16 : n ≤ 16)
    (hl : l.length = n) :
    readUint128 n (l ++ extra) = .ok (fromBeBytes l, extra) := by
  unfold readUint128
  rw [if_neg (by omega), if_neg (by rw [List.length_append, hl]; omega), if_neg (by omega),
    List.take_left' hl, List.drop_left' hl]

lemma readUint128_all (n : Nat) (l : List Nat) (hn1 : 1 ≤ n) (hn16 : n ≤ 16)
    (hl : l.length = n) :
    readUint128 n l = .ok (fromBeBytes l, []) := by
  have h := readUint128_exact n l [] hn1 hn16 hl
  rwa [List.append_nil] at h

lemma or128 : ∀ n, n < 128 →
    128 ||| n = 128 + n ∧ (128 + n) &&& 127 = n ∧ 127 < 128 ||| n := by
  decide

lemma lengthDeserialize_lengthSerialize (L : Nat) (h1 : 1 ≤ L) (h2 : L < 2 ^ 32)
    (extra : List Nat) :
    lengthDeserialize ((lengthSerialize L).1 ++ extra) = .ok (L, extra) := by
  rcases le_or_lt L 127 with h | h
  · rw [lengthSerialize_short L h]
    show lengthDeserialize (L :: extra) = .ok (L, extra)
    simp only [lengthDeserialize, readU8_cons, DecResult.bind_ok]
    rw [if_neg (by omega)]
  · have hL4 : L < 2 ^ (8 * 4) := by norm_num at h2 ⊢; omega
    have hle := minByteLen_le 4 L (by norm_num) hL4
    have hpos := minByteLen_pos L
    obtain ⟨hor, hand, hgt⟩ := or128 (minByteLen L) (by omega)
    rw [lengthSerialize_long L h h2]
    simp only [List.cons_append, lengthDeserialize, readU8_cons, DecResult.bind_ok]
    rw [if_pos hgt, hor, hand,
      readUint_exact (minByteLen L) (toBeBytes (minByteLen L) L) extra (by omega) (by omega)
        (toBeBytes_length _ _)]
    simp only [DecResult.bind_ok]
    rw [fromBeBytes_toBeBytes (minByteLen L) L (lt_pow_minByteLen L),
      if_pos (show L < 2 ^ 32 from h2)]

lemma uintDecode_intEncode (w v : Nat) (hw1 : 1 ≤ w) (hw16 : w ≤ 16)
    (hv : v < 2 ^ (8 * w)) :
    uintDecode w (intEncode w v).1 = .ok (v, []) := by
  have hL1 := minByteLen_pos v
  have hLw := minByteLen_le w v hw1 hv
  have hL32 : minByteLen v < 2 ^ 32 := by norm_num; omega
  rw [intEncode_eq w v hw1 hv]
  simp only [uintDecode, List.cons_append, readU8_cons, DecResult.bind_ok, if_true]
  rw [lengthDeserialize_lengthSerialize (minByteLen v) hL1 hL32 (toBeBytes (minByteLen v) v)]
  simp only [DecResult.bind_ok]
  rw [readUint128_all (minByteLen v) (toBeBytes (minByteLen v) v) hL1 (by omega)
    (toBeBytes_length _ _)]
  simp only [DecResult.bind_ok]
  rw [fromBeBytes_toBeBytes (minByteLen v) v (lt_pow_minByteLen v),
    if_pos (Nat.le_sub_one_of_lt hv)]

lemma intDecode_intEncodeSigned (w : Nat) (x : Int) (hw1 : 1 ≤ w) (hw16 : w ≤ 16)
    (hx1 : -(2 ^ (8 * w - 1) : Int) ≤ x) (hx2 : x < 2 ^ (8 * w - 1)) :
    intDecode w (intEncodeSigned w x).1 = .ok (x, []) := by
  have hsplit : (2 : Nat) ^ (8 * w) = 2 ^ (8 * w - 1) * 2 := by
    rw [← pow_succ]
    congr 1
    omega
  have hsplitI : (2 : Int) ^ (8 * w) = 2 ^ (8 * w - 1) * 2 := by
    rw [← pow_succ]
    congr 1
    omega
  have hcast1 : ((2 ^ (8 * w - 1) : Nat) : Int) = (2 : Int) ^ (8 * w - 1) := by push_cast; rfl
  have hcast2 : ((2 ^ (8 * w) : Nat) : Int) = (2 : Int) ^ (8 * w) := by push_cast; rfl
  have hB1 : 1 ≤ (2 : Nat) ^ (8 * w - 1) := Nat.one_le_two_pow
  have hBI : (0 : Int) < 2 ^ (8 * w - 1) := pow_pos (by norm_num) _
  obtain ⟨p, hp⟩ : ∃ p, toTwos w x = p := ⟨_, rfl⟩
  show intDecode w (intEncode w (toTwos w x)).1 = .ok (x, [])
  rw [hp]
  rcases le_or_lt 0 x with hx0 | hx0
  · -- nonnegative values: the pattern is x itself
    have hmod : x % (2 : Int) ^ (8 * w) = x :=
      Int.emod_eq_of_lt hx0 (by omega)
    have hpx : (p : Int) = x := by
      rw [← hp]
      simp only [toTwos]
      rw [hmod]
      exact Int.toNat_of_nonneg hx0
    have hpB : p < 2 ^ (8 * w - 1) := by
      have h := hx2
      rw [← hpx, ← hcast1] at h
      exact_mod_cast h
    have hpA : p < 2 ^ (8 * w) := by omega
    have hL1 := minByteLen_pos p
    have hLp := minByteLen_le w p hw1 hpA
    rw [intEncode_eq w p hw1 hpA]
    simp only [intDecode, List.cons_append, readU8_cons, DecResult.bind_ok, if_true]
    rw [lengthDeserialize_lengthSerialize (minByteLen p) hL1 (by norm_num; omega)
      (toBeBytes (minByteLen p) p)]
    simp only [DecResult.bind_ok]
    rcases lt_or_ge (minByteLen p) w with hLw' | hLw'
    · rw [if_pos hLw',
        readUint128_all (minByteLen p) (toBeBytes (minByteLen p) p) hL1 (by omega)
          (toBeBytes_length _ _)]
      simp only [DecResult.bind_ok]
      rw [fromBeBytes_toBeBytes (minByteLen p) p (lt_pow_minByteLen p),
        if_pos (by omega : p ≤ 2 ^ (8 * w - 1) - 1), hpx]
    · have hLeq : minByteLen p = w := le_antisymm hLp hLw'
      rw [if_neg (by omega), hLeq]
      simp only [readInt128]
      rw [readUint128_all w (toBeBytes w p) (by omega) (by omega) (toBeBytes_length _ _)]
      simp only [DecResult.bind_ok]
      rw [fromBeBytes_toBeBytes w p hpA, signExtend_eq w p hpA, if_pos hpB, hpx,
        if_pos ⟨hx1, by omega⟩]
  · -- negative values: the pattern is x + 2^(8w), with the top bit set
    have h2 : (0 : Int) ≤ x + 2 ^ (8 * w) := by omega
    have h3 : x + (2 : Int) ^ (8 * w) < 2 ^ (8 * w) := by omega
    have hmod : x % (2 : Int) ^ (8 * w) = x + 2 ^ (8 * w) := by
      have hstep : (x + 2 ^ (8 * w) * 1) % 2 ^ (8 * w) = x % 2 ^ (8 * w) :=
        Int.add_mul_emod_self_left x _ 1
      rw [mul_one] at hstep
      rw [← hstep]
      exact Int.emod_eq_of_lt h2 h3
    have hpx : (p : Int) = x + 2 ^ (8 * w) := by
      rw [← hp]
      simp only [toTwos]
      rw [hmod]
      exact Int.toNat_of_nonneg h2
    have hpBle : 2 ^ (8 * w - 1) ≤ p := by
      have h : ((2 ^ (8 * w - 1) : Nat) : Int) ≤ (p : Int) := by
        rw [hpx, hcast1]
        omega
      exact_mod_cast h
    have hpA : p < 2 ^ (8 * w) := by
      have h : (p : Int) < ((2 ^ (8 * w) : Nat) : Int) := by
        rw [hpx, hcast2]
        omega
      exact_mod_cast h
    have hL : minByteLen p = w := by
      apply minByteLen_eq w p hw1 _ hpA
      calc (2 : Nat) ^ (8 * (w - 1)) ≤ 2 ^ (8 * w - 1) :=
            Nat.pow_le_pow_right (by norm_num) (by omega)
        _ ≤ p := hpBle
    rw [intEncode_eq w p hw1 hpA, hL]
    simp only [intDecode, List.cons_append, readU8_cons, DecResult.bind_ok, if_true]
    rw [lengthDeserialize_lengthSerialize w hw1 (by norm_num; omega) (toBeBytes w p)]
    simp only [DecResult.bind_ok]
    rw [if_neg (by omega : ¬w < w)]
    simp only [readInt128]
    rw [readUint128_all w (toBeBytes w p) (by omega) (by omega) (toBeBytes_length _ _)]
    simp only [DecResult.bind_ok]
    rw [fromBeBytes_toBeBytes w p hpA, signExtend_eq w p hpA,
      if_neg (by omega : ¬p < 2 ^ (8 * w - 1))]
    have hval : (p : Int) - 2 ^ (8 * w) = x := by
      rw [hpx]
      ring
    rw [hval, if_pos ⟨hx1, by omega⟩]

/-! Claim theorems. -/

/-- C1: for every supported integer width (8, 16, 32, 64, 128 bits, i.e. 1, 2,
4, 8, 16 bytes) and both signednesses, and for every value of that type,
deserializing the bytes produced by serializing the value yields the value
back (decode (encode x) = x). -/
theorem C1_integer_roundtrip (w : Nat) (hw : w ∈ [1, 2, 4, 8, 16]) :
    (∀ v : Nat, v < 2 ^ (8 * w) → uintDecode w (intEncode w v).1 = .ok (v, []))
    ∧ (∀ x : Int, -(2 ^ (8 * w - 1) : Int) ≤ x → x < 2 ^ (8 * w - 1) →
        intDecode w (intEncodeSigned w x).1 = .ok (x, [])) := by
  obtain ⟨hw1, hw16⟩ : 1 ≤ w ∧ w ≤ 16 := by fin_cases hw <;> omega
  exact ⟨fun v hv => uintDecode_intEncode w v hw1 hw16 hv,
    fun x h1 h2 => intDecode_intEncodeSigned w x hw1 hw16 h1 h2⟩

/-- Witness for C1 at width 1: round trip of 255 (as u8) and of -1 (as i8). -/
theorem C1_integer_roundtrip_witness :
    uintDecode 1 (intEncode 1 255).1 = .ok (255, [])
    ∧ intDecode 1 (intEncodeSigned 1 (-1)).1 = .ok (-1, []) :=
  ⟨(C1_integer_roundtrip 1 (by decide)).1 255 (by norm_num),
   (C1_integer_roundtrip 1 (by decide)).2 (-1) (by norm_num) (by norm_num)⟩

/-- C2: integer serialize writes the INTEGER tag octet 0x02, then a Length
header for L = native byte width minus the number of leading 0x00 octets of
the big-endian representation (L forced to 1 when all octets are zero, so zero
encodes as a single 0x00 content octet), then those L stripped octets, and
returns the total octet count; only leading 0x00 octets are stripped, never
0xFF, so every pattern with the top bit set (every negative signed value) has
content of exactly the full native byte width. -/
theorem C2_int_encode_minimal (w v : Nat) (hw : w ∈ [1, 2, 4, 8, 16])
    (hv : v < 2 ^ (8 * w)) :
    (intEncode w v).1
        = INTEGER :: (lengthSerialize (minByteLen v)).1 ++ toBeBytes (minByteLen v) v
    ∧ minByteLen v = max 1 (w - ((toBeBytes w v).takeWhile (fun b => b == 0)).length)
    ∧ toBeBytes (minByteLen v) v = (toBeBytes w v).drop (w - minByteLen v)
    ∧ (intEncode w v).2 = (intEncode w v).1.length
    ∧ (2 ^ (8 * w - 1) ≤ v → minByteLen v = w) := by
  obtain ⟨hw1, hw16⟩ : 1 ≤ w ∧ w ≤ 16 := by fin_cases hw <;> omega
  have hle := minByteLen_le w v hw1 hv
  have hpos := minByteLen_pos v
  refine ⟨?_, ?_, ?_, ?_, ?_⟩
  · rw [intEncode_eq w v hw1 hv]
  · rw [takeWhile_len w v hw1 hv]
    rcases Nat.eq_zero_or_pos v with h0 | h1
    · subst h0
      rw [if_pos rfl]
      simp only [minByteLen, Nat.log_zero_right, Nat.sub_self]
      omega
    · rw [if_neg (by omega)]
      omega
  · exact (drop_strip w v hw1 hv).symm
  · rw [intEncode_eq w v hw1 hv]
    simp only [List.length_cons, List.length_append, toBeBytes_length]
    rw [lengthSerialize_count (minByteLen v) (by norm_num; omega)]
    omega
  · intro htop
    apply minByteLen_eq w v hw1 _ hv
    calc (2 : Nat) ^ (8 * (w - 1)) ≤ 2 ^ (8 * w - 1) :=
          Nat.pow_le_pow_right (by norm_num) (by omega)
      _ ≤ v := htop

/-- Witness for C2 at width 1 and value 0: zero keeps a single 0x00 octet. -/
theorem C2_int_encode_minimal_witness :
    (intEncode 1 0).1
      = INTEGER :: (lengthSerialize (minByteLen 0)).1 ++ toBeBytes (minByteLen 0) 0 :=
  (C2_int_encode_minimal 1 0 (by decide) (by norm_num)).1

/-- C3: Length::serialize emits one octet equal to the value when it is at
most 127; for larger u32 values it emits 0x80 with the content octet count in
the low bits, followed by the minimal big-endian octets of the value (between
1 and 4 of them, no leading 0x00), and returns the octet count written; the
literal vectors encode(1), encode(128) and encode(0xA5B5C5D5) are as the
specification lists them. -/
theorem C3_length_serialize_forms (v : Nat) (h1 : 1 ≤ v) (h2 : v < 2 ^ 32) :
    (v ≤ 127 → lengthSerialize v = ([v], 1))
    ∧ (128 ≤ v →
        lengthSerialize v
          = ((128 ||| minByteLen v) :: toBeBytes (minByteLen v) v, minByteLen v + 1)
        ∧ 1 ≤ minByteLen v ∧ minByteLen v ≤ 4
        ∧ (toBeBytes (minByteLen v) v).length = minByteLen v
        ∧ (toBeBytes (minByteLen v) v).head? ≠ some 0
        ∧ fromBeBytes (toBeBytes (minByteLen v) v) = v)
    ∧ (lengthSerialize v).2 = (lengthSerialize v).1.length
    ∧ (lengthSerialize 1).1 = [1]
    ∧ (lengthSerialize 128).1 = [0x81, 0x80]
    ∧ (lengthSerialize 0xA5B5C5D5).1 = [0x84, 0xA5, 0xB5, 0xC5, 0xD5] := by
  refine ⟨fun h => lengthSerialize_short v h, fun h => ?_, lengthSerialize_count v h2,
    by decide, by decide, by decide⟩
  have hv4 : v < 2 ^ (8 * 4) := by norm_num at h2 ⊢; omega
  have hle := minByteLen_le 4 v (by norm_num) hv4
  have hpos := minByteLen_pos v
  refine ⟨lengthSerialize_long v (by omega) h2, hpos, hle, toBeBytes_length _ _, ?_,
    fromBeBytes_toBeBytes _ _ (lt_pow_minByteLen v)⟩
  obtain ⟨b, l, hbl, hb⟩ := toBeBytes_min_head v (by omega)
  rw [hbl]
  simp [hb]

/-- Witness for C3 at value 1: the short form emits the single octet 0x01. -/
theorem C3_length_serialize_forms_witness : lengthSerialize 1 = ([1], 1) :=
  (C3_length_serialize_forms 1 (by norm_num) (by norm_num)).1 (by norm_num)

/-- C4: for every u32 value between 1 and 0xFFFFFFFF, deserializing the bytes
produced by Length::serialize yields back a Length with the same value,
consuming the whole encoding. -/
theorem C4_length_roundtrip (v : Nat) (h1 : 1 ≤ v) (h2 : v < 2 ^ 32) :
    lengthDeserialize (lengthSerialize v).1 = .ok (v, []) := by
  have h := lengthDeserialize_lengthSerialize v h1 h2 []
  rwa [List.append_nil] at h

/-- Witness for C4 at the long-form value 0xA5B5C5D5. -/
theorem C4_length_roundtrip_witness :
    lengthDeserialize (lengthSerialize 0xA5B5C5D5).1 = .ok (0xA5B5C5D5, []) :=
  C4_length_roundtrip 0xA5B5C5D5 (by norm_num) (by norm_num)

/-- C5 counterexample: with content count L = 0 (input: tag octet 0x02 then
length octet 0x00) the signed decoder does not interpret the zero content
octets as an unsigned big-endian magnitude (which would decode the value 0);
it panics in the underlying byte reader, so the claimed interpretation rule
fails at this input. -/
theorem C5_counterexample_zero_content :
    intDecode 1 [0x02, 0x00] = .panic ∧ intDecode 1 [0x02, 0x00] ≠ .ok (0, []) := by
  decide

/-- C5 (amended): decoding a signed integer of byte width w from a tag octet
followed by more input fails with UnexpectedTag unless the tag is 0x02; with
the INTEGER tag, once the Length decodes to a content count L leaving input
rem: for 1 ≤ L < w with enough content the L content octets are read as an
unsigned big-endian magnitude (no sign extension; the value always fits the
target, so this branch never errors); for w ≤ L ≤ 16 with enough content they
are read as a signed, sign-extended big-endian integer, failing with
IntValueTooLarge when the decoded value does not fit the target width; L = 0
or L > 16 panic in the underlying byte reader instead of returning an
error. -/
theorem C5_signed_decode_branches (w : Nat) (hw1 : 1 ≤ w) (hw16 : w ≤ 16)
    (tag : Nat) (rest : List Nat) :
    (tag ≠ INTEGER → intDecode w (tag :: rest) = .err .UnexpectedTag)
    ∧ (tag = INTEGER → ∀ L rem, lengthDeserialize rest = .ok (L, rem) →
        (∀ b ∈ rem, b < 256) →
        ((1 ≤ L → L < w → L ≤ rem.length →
            intDecode w (tag :: rest)
              = .ok ((fromBeBytes (rem.take L) : Int), rem.drop L))
        ∧ (w ≤ L → L ≤ 16 → L ≤ rem.length →
            intDecode w (tag :: rest)
              = if -(2 ^ (8 * w - 1) : Int) ≤ signExtend L (fromBeBytes (rem.take L))
                    ∧ signExtend L (fromBeBytes (rem.take L)) ≤ (2 : Int) ^ (8 * w - 1) - 1
                then .ok (signExtend L (fromBeBytes (rem.take L)), rem.drop L)
                else .err .IntValueTooLarge)
        ∧ ((L = 0 ∨ 16 < L) → intDecode w (tag :: rest) = .panic))) := by
  constructor
  · intro htag
    simp only [intDecode, readU8_cons, DecResult.bind_ok]
    rw [if_neg htag]
  · intro htag L rem hlen hbytes
    subst htag
    refine ⟨?_, ?_, ?_⟩
    · intro h1 h2 h3
      simp only [intDecode, readU8_cons, DecResult.bind_ok, if_true, hlen]
      rw [if_pos h2]
      unfold readUint128
      rw [if_neg (by omega), if_neg (by omega), if_neg (by omega)]
      simp only [DecResult.bind_ok]
      have hsub : ∀ b ∈ rem.take L, b < 256 := fun b hb => hbytes b (List.take_subset L rem hb)
      have hlt := fromBeBytes_lt_pow2 (rem.take L) hsub
      have hlen' : (rem.take L).length = L := by rw [List.length_take]; omega
      rw [hlen'] at hlt
      have hbound : fromBeBytes (rem.take L) < 2 ^ (8 * w - 1) :=
        lt_of_lt_of_le hlt (Nat.pow_le_pow_right (by norm_num) (by omega))
      rw [if_pos (by omega : fromBeBytes (rem.take L) ≤ 2 ^ (8 * w - 1) - 1)]
    · intro h1 h2 h3
      simp only [intDecode, readU8_cons, DecResult.bind_ok, if_true, hlen]
      rw [if_neg (by omega : ¬L < w)]
      simp only [readInt128]
      unfold readUint128
      rw [if_neg (by omega), if_neg (by omega), if_neg (by omega : ¬L = 0)]
      simp only [DecResult.bind_ok]
    · intro hL
      simp only [intDecode, readU8_cons, DecResult.bind_ok, if_true, hlen]
      rcases hL with h0 | h17
      · subst h0
        rw [if_pos (by omega : 0 < w)]
        unfold readUint128
        rw [if_neg (by omega), if_neg (by omega), if_pos rfl]
        rfl
      · rw [if_neg (by omega : ¬L < w)]
        simp only [readInt128]
        unfold readUint128
        rw [if_pos h17]
        rfl

/-- Witness for the amended C5 at width 1 on the input 0x02 0x01 0x05: the
single content octet goes through the signed (sign-extending) branch and
decodes to 5. -/
theorem C5_signed_decode_branches_witness :
    intDecode 1 [0x02, 0x01, 0x05] = .ok (5, []) := by
  have h := ((C5_signed_decode_branches 1 (by norm_num) (by norm_num) 0x02 [0x01, 0x05]).2
    (by decide) 1 [0x05] (by decide) (by decide)).2.1 (by norm_num) (by norm_num)
    (by norm_num)
  rw [h]
  decide

/-- C6: a long-form length-of-length of 9 octets whose big-endian magnitude
exceeds 32 bits makes Length::deserialize panic (byteorder read_uint supports
at most 8 octets) instead of returning the recoverable IntValueTooLarge error
the claim requires; within the supported range (here a 5-octet magnitude) the
overflow does surface as IntValueTooLarge. -/
theorem C6_length_of_length_overflow :
    lengthDeserialize (0x89 :: List.replicate 9 1) = .panic
    ∧ 2 ^ 32 ≤ fromBeBytes (List.replicate 9 1)
    ∧ lengthDeserialize [0x85, 0xAB, 0xCD, 0xEF, 0x88, 0x99] = .err .IntValueTooLarge := by
  decide

/-- C7: a declared content length exceeding the remaining octets yields
UnexpectedEof only while the length is within the byteorder reader's 16-octet
range; the declared length 0x11 = 17 with no content octets panics (slicing
the 16-byte scratch buffer) instead of returning UnexpectedEof. -/
theorem C7_truncated_integer_decode :
    uintDecode 1 [0x02, 0x11] = .panic
    ∧ uintDecode 1 [0x02, 0x03, 0x00, 0x00] = .err .UnexpectedEof
    ∧ intDecode 4 [0x02, 0x05, 0x01, 0x01] = .err .UnexpectedEof := by
  decide

/-- C8: the single octet 0x00 decodes to a Length of value 0 with no error,
even though Length::new(0) trips its assertion — the value ≥ 1 invariant is
not checked on decode. -/
theorem C8_length_zero_decode :
    lengthDeserialize [0x00] = .ok (0, []) ∧ lengthNew 0 = none ∧ lengthNew 1 = some 1 := by
  decide

set_option maxRecDepth 100000 in
/-- C9: for every tag byte, combinators on disjoint bit ranges commute (each
class combinator with each of primitive/constructed), while composing two
class-setting combinators equals applying only the last one. -/
theorem C9_tag_combinators (t : Nat) (h : t < 256) :
    (∀ c ∈ [tagUniversal, tagApplication, tagContextSpecific, tagPrivate],
      ∀ p ∈ [tagPrimitive, tagConstructed], c (p t) = p (c t))
    ∧ (∀ c1 ∈ [tagUniversal, tagApplication, tagContextSpecific, tagPrivate],
        ∀ c2 ∈ [tagUniversal, tagApplication, tagContextSpecific, tagPrivate],
          c2 (c1 t) = c2 t) := by
  revert h
  revert t
  decide

/-- Witness for C9 at t = 5: constructed and application commute, and
universal followed by private collapses to private alone. -/
theorem C9_tag_combinators_witness :
    tagApplication (tagConstructed 5) = tagConstructed (tagApplication 5)
    ∧ tagPrivate (tagUniversal 5) = tagPrivate 5 :=
  ⟨(C9_tag_combinators 5 (by norm_num)).1 tagApplication (by simp) tagConstructed (by simp),
   (C9_tag_combinators 5 (by norm_num)).2 tagUniversal (by simp) tagPrivate (by simp)⟩

/-- C10: integer encoding depends only on the two's-complement bit pattern:
the signed encoder is the unsigned encoder applied to the value's pattern,
255 (as u8) and -1 (as i8) both serialize to [0x02, 0x01, 0xFF], and an
unsigned value whose minimal representation has its top bit set is emitted
without a leading 0x00 pad octet — its content is exactly its minimal
big-endian octets, whose first octet is at least 0x80. -/
theorem C10_bit_pattern_encoding (w : Nat) (hw : 1 ≤ w) :
    ((intEncodeSigned 1 (-1)).1 = [0x02, 0x01, 0xFF]
      ∧ (intEncode 1 255).1 = [0x02, 0x01, 0xFF])
    ∧ (∀ x : Int, ∀ v : Nat, toTwos w x = v → intEncodeSigned w x = intEncode w v)
    ∧ (∀ v L : Nat, 1 ≤ L → L ≤ w → 2 ^ (8 * L - 1) ≤ v → v < 2 ^ (8 * L) →
        (intEncode w v).1 = INTEGER :: (lengthSerialize L).1 ++ toBeBytes L v
        ∧ 128 ≤ v / 2 ^ (8 * (L - 1))) := by
  refine ⟨⟨by decide, by decide⟩, ?_, ?_⟩
  · intro x v hxv
    simp only [intEncodeSigned, hxv]
  · intro v L hL1 hLw htop hvL
    have hveq : minByteLen v = L := by
      apply minByteLen_eq L v hL1 _ hvL
      calc (2 : Nat) ^ (8 * (L - 1)) ≤ 2 ^ (8 * L - 1) :=
            Nat.pow_le_pow_right (by norm_num) (by omega)
        _ ≤ v := htop
    have hvw : v < 2 ^ (8 * w) :=
      lt_of_lt_of_le hvL (Nat.pow_le_pow_right (by norm_num) (by omega))
    constructor
    · rw [intEncode_eq w v hw hvw, hveq]
    · have hpow : (2 : Nat) ^ (8 * L - 1) = 128 * 2 ^ (8 * (L - 1)) := by
        rw [show (128 : Nat) = 2 ^ 7 from by norm_num, ← pow_add]
        congr 1
        omega
      rw [Nat.le_div_iff_mul_le (pow_pos (by norm_num) _)]
      omega

/-- Witness for C10 at width 1: the signed encoder on -1 agrees with the
unsigned encoder on its byte pattern 255. -/
theorem C10_bit_pattern_encoding_witness :
    intEncodeSigned 1 (-1) = intEncode 1 255 :=
  (C10_bit_pattern_encoding 1 (by norm_num)).2.1 (-1) 255 (by decide)

end Serder
